import Mathlib

/-!
Verification of the contract-analysis pipeline of this repository
(server/utils/contractAnalyzer, the OpenAI helper module, the Express
routes and the storage adapter).

The embedding works on `List Char` as the model of JavaScript strings
(the sources only ever exercise ASCII, where `Char.toLower` agrees with
`String.prototype.toLowerCase`).  JavaScript regular expressions used by
the code are embedded as dedicated matchers with the leftmost, greedy,
backtracking semantics of the concrete patterns appearing in the source.
Randomness (`Math.random()` draws) is passed in explicitly: the coin for
the status decision, the base risk draw in [0,9], and the random category
index in [0,5].
-/

namespace ContractAnalyzer

abbrev Str := List Char

/-- The character class `\s` of JavaScript regular expressions and the
set of characters removed by `String.prototype.trim`. -/
def isJsSpace (c : Char) : Bool :=
  c == ' ' || c == '\t' || c == '\n' || c == '\r' || c == '\x0b' || c == '\x0c' ||
  c == '\u00A0' || c == '\u1680' || ('\u2000' ≤ c && c ≤ '\u200A') ||
  c == '\u2028' || c == '\u2029' || c == '\u202F' || c == '\u205F' ||
  c == '\u3000' || c == '\uFEFF'

/-- Model of `String.prototype.toLowerCase` (ASCII-faithful). -/
def lowerStr (s : Str) : Str := s.map Char.toLower

/-- Model of `String.prototype.trim`. -/
def trimStr (s : Str) : Str :=
  ((s.dropWhile isJsSpace).reverse.dropWhile isJsSpace).reverse

/-- `needle` occurs at the very start of `hay`. -/
def startsWithStr : Str → Str → Bool
  | [], _ => true
  | _ :: _, [] => false
  | a :: as, b :: bs => a == b && startsWithStr as bs

/-- Model of `String.prototype.includes`: substring containment. -/
def containsSub (needle : Str) : Str → Bool
  | [] => needle.isEmpty
  | c :: cs => startsWithStr needle (c :: cs) || containsSub needle cs

/-- Model of the JavaScript `x || d` idiom on an optional string field
(`undefined`, `null` and the empty string are falsy). -/
def jsOrStr (x : Option Str) (d : Str) : Str :=
  match x with
  | some s => if s.isEmpty then d else s
  | none => d

/-- Model of the JavaScript `x || d` idiom on an optional number field
(`undefined`, `null` and `0` are falsy). -/
def jsOrNat (x : Option Nat) (d : Nat) : Nat :=
  match x with
  | some n => if n = 0 then d else n
  | none => d

/-! ## Data model (shared/schema) -/

/-- A compliance rule, per the `complianceRules` table of shared/schema. -/
structure ComplianceRule where
  id : Nat
  keyword : Str
  allowed : Bool
  riskScore : Nat
  category : Option Str
  description : Option Str
deriving DecidableEq

/-- The three compliance statuses. -/
inductive Status where
  | Compliant
  | NonCompliant
  | ReviewNeeded
deriving DecidableEq

structure Recommendation where
  title : Str
  description : Str
deriving DecidableEq

structure ComplianceIssue where
  issue : Str
  rule : Option Str
  description : Str
deriving DecidableEq

/-- The analysis result produced per clause (shape shared by
`basicClauseAnalysis` and `analyzeClauseWithAI`). -/
structure Analysis where
  compliance_status : Status
  risk_score : Nat
  category : Str
  recommendations : List Recommendation
  compliance_issues : List ComplianceIssue
deriving DecidableEq

/-- One `{rule, isViolation}` pair of the rule-matching loop in
`basicClauseAnalysis`. -/
structure RuleMatch where
  rule : ComplianceRule
  isViolation : Bool
deriving DecidableEq

/-! ## Rule Matcher (basicClauseAnalysis, matching loop) -/

/-- The `rules.forEach` loop of `basicClauseAnalysis`: a rule matches when
its keyword occurs (case-insensitively) anywhere in the clause text, and
each match is recorded together with `isViolation = !rule.allowed`. -/
def matchRules (clauseText : Str) (rules : List ComplianceRule) : List RuleMatch :=
  rules.filterMap fun rule =>
    if containsSub (lowerStr rule.keyword) (lowerStr clauseText) then
      some { rule := rule, isViolation := !rule.allowed }
    else none

/-! ## Heuristic clause analyzer (basicClauseAnalysis) -/

/-- Status determination of `basicClauseAnalysis`: "Non-Compliant" when a
violation exists, otherwise a coin flip between "Compliant" and
"Review Needed" when there is a non-violating match, otherwise
"Compliant".  `statusCoin` is the value of `Math.random() > 0.5`. -/
def heuristicStatus (clauseText : Str) (rules : List ComplianceRule) (statusCoin : Bool) : Status :=
  let matched := matchRules clauseText rules
  let violations := matched.filter (·.isViolation)
  if violations.length > 0 then Status.NonCompliant
  else if matched.length > 0 then
    (if statusCoin then Status.Compliant else Status.ReviewNeeded)
  else Status.Compliant

/-- Risk-score adjustment of `basicClauseAnalysis`: the base draw
`Math.floor(Math.random() * 10)` is clamped according to the status. -/
def adjustRisk (st : Status) (base : Nat) : Nat :=
  if st = Status.NonCompliant then max 7 base
  else if st = Status.ReviewNeeded then max 4 (min 6 base)
  else min 3 base

/-- The fixed category pool of `basicClauseAnalysis`. -/
def categoriesList : List Str :=
  ["Liability".toList, "IP Rights".toList, "Confidentiality".toList,
   "Payment Terms".toList, "Termination".toList, "Indemnification".toList]

/-- Category determination of `basicClauseAnalysis`: keyword sniffing in a
fixed priority order, with a random pool pick as the default. -/
def heuristicCategory (clauseText : Str) (categoryPick : Fin 6) : Str :=
  let lc := lowerStr clauseText
  if containsSub ("confiden".toList) lc then "Confidentiality".toList
  else if containsSub ("terminat".toList) lc then "Termination".toList
  else if containsSub ("payment".toList) lc || containsSub ("fee".toList) lc then
    "Payment Terms".toList
  else if containsSub ("liab".toList) lc then "Liability".toList
  else if containsSub ("intellectual".toList) lc || containsSub ("property".toList) lc then
    "IP Rights".toList
  else if containsSub ("indemnif".toList) lc then "Indemnification".toList
  else categoriesList.getD categoryPick.val []

/-- Recommendation templates of `basicClauseAnalysis`, keyed off the
status and the violated rule keywords. -/
def heuristicRecommendations (st : Status) (violations : List RuleMatch) : List Recommendation :=
  match st with
  | Status.NonCompliant =>
    [{ title := "Remove non-compliant language".toList,
       description := "This clause contains non-compliant language related to ".toList
         ++ List.intercalate (", ".toList) (violations.map fun v => v.rule.keyword)
         ++ ". Consider revising or removing.".toList }]
  | Status.ReviewNeeded =>
    [{ title := "Review clause carefully".toList,
       description := "This clause contains language that may require further review by legal experts.".toList }]
  | Status.Compliant => []

/-- Compliance-issue entries of `basicClauseAnalysis`, one per violation. -/
def heuristicIssues (violations : List RuleMatch) : List ComplianceIssue :=
  violations.map fun v =>
    { issue := "Non-compliant use of \"".toList ++ v.rule.keyword ++ "\"".toList,
      rule := some v.rule.keyword,
      description := jsOrStr v.rule.description
        ("The use of \"".toList ++ v.rule.keyword ++ "\" violates compliance rules.".toList) }

/-- `basicClauseAnalysis(clauseText, rules, section)` of
server/utils/contractAnalyzer.  The three random draws of the source are
explicit arguments; `sect` is the `section` parameter (unused by the
computation, kept for fidelity). -/
def basicClauseAnalysis (clauseText : Str) (rules : List ComplianceRule) (sect : Str)
    (statusCoin : Bool) (riskBase : Fin 10) (categoryPick : Fin 6) : Analysis :=
  let matched := matchRules clauseText rules
  let violations := matched.filter (·.isViolation)
  let complianceStatus := heuristicStatus clauseText rules statusCoin
  { compliance_status := complianceStatus,
    risk_score := adjustRisk complianceStatus riskBase.val,
    category := heuristicCategory clauseText categoryPick,
    recommendations := heuristicRecommendations complianceStatus violations,
    compliance_issues := heuristicIssues violations }

/-! ## Risk-score bands -/

/-- Lower end of the risk band implied by a compliance status. -/
def statusLo : Status → Nat
  | Status.NonCompliant => 7
  | Status.ReviewNeeded => 4
  | Status.Compliant => 0

/-- Upper end of the risk band implied by a compliance status. -/
def statusHi : Status → Nat
  | Status.NonCompliant => 9
  | Status.ReviewNeeded => 6
  | Status.Compliant => 3

/-- Two concrete rules used by the C5 witness. -/
def ruleLiabilityW : ComplianceRule :=
  { id := 2, keyword := "Liability clause".toList, allowed := false,
    riskScore := 5, category := none, description := none }

def ruleNdaW : ComplianceRule :=
  { id := 1, keyword := "Non-disclosure agreement".toList, allowed := true,
    riskScore := 5, category := none, description := none }

/-- Concrete clause text used by the C5 witness. -/
def clauseLiabilityW : Str :=
  "This liability clause limits the vendor exposure.".toList

/-! ## Clause Segmenter (splitTextIntoClauses) -/

/-- Index of the last newline in a character list, if any. -/
def lastNewlineIdx : Str → Option Nat
  | [] => none
  | x :: xs =>
    match lastNewlineIdx xs with
    | some i => some (i + 1)
    | none => if x == '\n' then some 0 else none

/-- Leftmost-greedy match of the separator regex `\n\s*\n` at the head of
the input: a newline, a (backtracking-greedy) run of whitespace, and a
final newline.  Returns the number of characters consumed. -/
def matchBlankSep : Str → Option Nat
  | '\n' :: rest =>
    (match lastNewlineIdx (rest.takeWhile isJsSpace) with
     | some k => some (k + 2)
     | none => none)
  | _ => none

/-- Leftmost-greedy match of the separator regex `\.\s+` at the head of
the input: a literal dot and a nonempty greedy whitespace run.  Returns
the number of characters consumed. -/
def matchDotSep : Str → Option Nat
  | '.' :: rest =>
    (let ws := rest.takeWhile isJsSpace
     if ws.isEmpty then none else some (ws.length + 1))
  | _ => none

/-- Model of `String.prototype.split(regex)`: scan left to right, cut at
each leftmost match, resume after the consumed separator.  The fuel is
the remaining input length; both separators consume at least one
character (the `max 1` makes this manifest), so the fuel never runs out
when started at the input length. -/
def splitSepGo (m : Str → Option Nat) : Nat → Str → Str → List Str
  | _, acc, [] => [acc.reverse]
  | 0, acc, rest => [acc.reverse ++ rest]
  | fuel + 1, acc, c :: cs =>
    match m (c :: cs) with
    | some n => acc.reverse :: splitSepGo m fuel [] (List.drop (max 1 n) (c :: cs))
    | none => splitSepGo m fuel (c :: acc) cs

def splitSep (m : Str → Option Nat) (s : Str) : List Str :=
  splitSepGo m s.length [] s

/-- `splitTextIntoClauses(text)` of server/utils/contractAnalyzer:
split on blank-line boundaries, keep paragraphs whose trimmed length
exceeds 50; if none remain, re-split the whole text on sentence
boundaries and keep pieces whose (raw) length exceeds 50. -/
def splitTextIntoClauses (text : Str) : List Str :=
  let paragraphs := splitSep matchBlankSep text
  let clauses := paragraphs.filter fun p => decide (50 < (trimStr p).length)
  if clauses.isEmpty then
    (splitSep matchDotSep text).filter fun s => decide (50 < s.length)
  else clauses

/-- Concrete input refuting C3 as stated: thirty letters, a sentence
boundary that is also a paragraph boundary, thirty more letters.  The
whole text trims to 63 characters, yet every paragraph and every
sentence piece is at most 50 characters long. -/
def shortPiecesText : Str :=
  List.replicate 30 'a' ++ ".\n\n".toList ++ List.replicate 30 'b'

/-! ## Financial Extractor: the fee-merge step of /api/extract-fees -/

/-- One entry of a contract summary's `fees` array. -/
structure Fee where
  name : Str
  amount : Str
  frequency : Option Str
  description : Option Str
  category : Option Str
deriving DecidableEq

/-- A JavaScript `Map` over string keys, modelled as an insertion-ordered
association list with at most one entry per key. -/
instance : Inhabited Fee := ⟨⟨[], [], none, none, none⟩⟩

abbrev FeeMap := List (Str × Fee)

def feeKeys (m : FeeMap) : List Str := m.map Prod.fst

/-- `Map.prototype.has`. -/
def feeMapHas (m : FeeMap) (k : Str) : Bool := m.any fun p => decide (p.1 = k)

/-- `Map.prototype.set`: replace in place when the key exists (keeping its
position), append otherwise. -/
def feeMapSet (m : FeeMap) (k : Str) (v : Fee) : FeeMap :=
  if feeMapHas m k then m.map (fun p => if p.1 = k then (k, v) else p)
  else m ++ [(k, v)]

/-- `new Map(existingFees.map(fee => [fee.name, fee]))`: repeated `set`
starting from the empty map. -/
def feeMapOf (fees : List Fee) : FeeMap :=
  fees.foldl (fun m f => feeMapSet m f.name f) []

/-- The `for (const fee of extractedFees)` loop of the extract-fees
route: a fee is added only when its name is not yet a key. -/
def addNewFees (m : FeeMap) (fees : List Fee) : FeeMap :=
  fees.foldl (fun m f => if feeMapHas m f.name then m else m ++ [(f.name, f)]) m

/-- The merge step of the `/api/extract-fees` route: build a name-keyed
map of the stored fees, add extracted fees with fresh names, and read the
values back off in order (`Array.from(feeMap.values())`). -/
def mergeFees (existing extracted : List Fee) : List Fee :=
  (addNewFees (feeMapOf existing) extracted).map Prod.snd

/-- Well-formedness of a fee map: every entry is keyed by its fee's name
(all `set` calls of the source use `fee.name` as the key). -/
def WfFeeMap (m : FeeMap) : Prop := ∀ p ∈ m, p.1 = p.2.name

/-! ## Stored clauses (shared/schema `clauses` table) -/

/-- An analyzed clause before storage assigns an id (`InsertClause` of
shared/schema).  `sect` is the `section` column. -/
structure InsertClause where
  clause : Str
  sect : Str
  page : Nat
  category : Str
  risk_score : Nat
  compliance_status : Status
  document_id : Str
  recommendations : List Recommendation
  compliance_issues : List ComplianceIssue
deriving DecidableEq

/-- A stored clause (`Clause` of shared/schema). -/
structure Clause extends InsertClause where
  id : Nat
  completed : Bool
deriving DecidableEq

/-! ## Payment-term extraction (basicPaymentTermExtraction of the routes
module).  The four regexes of the source are embedded as leftmost
matchers; each `match..At` function is the match attempt at the head of
the input and `scanFirst` scans for the leftmost position that matches,
exactly as a JavaScript regex engine does. -/

/-- Leftmost scan of a matcher over all start positions. -/
def scanFirst (f : Str → Option Str) : Str → Option Str
  | [] => none
  | c :: cs =>
    match f (c :: cs) with
    | some r => some r
    | none => scanFirst f cs

/-- Tail of `/net\s+([0-9]+)\s+days?/i` after a literal, followed by the
captured digit group: nonempty whitespace, digits (captured), nonempty
whitespace, then "day" with an optional "s". -/
def matchNumDays (cs : Str) : Option Str :=
  let ws1 := cs.takeWhile isJsSpace
  if ws1.isEmpty then none else
    let r1 := cs.drop ws1.length
    let ds := r1.takeWhile Char.isDigit
    if ds.isEmpty then none else
      let r2 := r1.drop ds.length
      let ws2 := r2.takeWhile isJsSpace
      if ws2.isEmpty then none else
        match r2.drop ws2.length with
        | 'd' :: 'a' :: 'y' :: _ => some ds
        | _ => none

/-- Match of `/net\s+([0-9]+)\s+days?/i` at the head of the (lowercased)
input; returns the captured digits. -/
def matchNetAt (cs : Str) : Option Str :=
  if startsWithStr ("net".toList) cs then matchNumDays (cs.drop 3) else none

/-- Match of `\s+within` followed by the number-of-days tail, used after
`pay` or `payment`. -/
def matchWithinDays (cs : Str) : Option Str :=
  let ws1 := cs.takeWhile isJsSpace
  if ws1.isEmpty then none else
    let r1 := cs.drop ws1.length
    if startsWithStr ("within".toList) r1 then matchNumDays (r1.drop 6) else none

/-- Match of `/pay(?:ment)?\s+within\s+([0-9]+)\s+days?/i` at the head:
the optional greedy `(?:ment)?` is tried long-first with backtracking. -/
def matchPayWithinAt (cs : Str) : Option Str :=
  if startsWithStr ("pay".toList) cs then
    let rest := cs.drop 3
    if startsWithStr ("ment".toList) rest then
      (matchWithinDays (rest.drop 4)).orElse fun _ => matchWithinDays rest
    else matchWithinDays rest
  else none

/-- Match of `/due\s+(?:within|in)\s+([0-9]+)\s+days?/i` at the head; the
alternation tries `within` before `in`. -/
def matchDueAt (cs : Str) : Option Str :=
  if startsWithStr ("due".toList) cs then
    let rest := cs.drop 3
    let ws1 := rest.takeWhile isJsSpace
    if ws1.isEmpty then none else
      let r1 := rest.drop ws1.length
      if startsWithStr ("within".toList) r1 then matchNumDays (r1.drop 6)
      else if startsWithStr ("in".toList) r1 then matchNumDays (r1.drop 2)
      else none
  else none

/-- A character of the class `[0-9\.]`. -/
def isAmountChar (c : Char) : Bool := c.isDigit || c == '.'

/-- The captured group `([0-9\.]+%|[0-9\.]+\s+percent)`: the first
alternative (percent sign) is tried before the second (the word). -/
def matchAmountCapture (cs : Str) : Option Str :=
  let ds := cs.takeWhile isAmountChar
  if ds.isEmpty then none else
    match cs.drop ds.length with
    | '%' :: _ => some (ds ++ ['%'])
    | r =>
      let ws := r.takeWhile isJsSpace
      if ws.isEmpty then none else
        if startsWithStr ("percent".toList) (r.drop ws.length) then
          some (ds ++ ws ++ "percent".toList)
        else none

/-- Match of `/late\s+(?:fee|payment|charge)\s+of\s+([0-9\.]+%|[0-9\.]+\s+percent)/i`
at the head; returns the captured amount. -/
def matchLateFeeAt (cs : Str) : Option Str :=
  if startsWithStr ("late".toList) cs then
    let rest := cs.drop 4
    let ws1 := rest.takeWhile isJsSpace
    if ws1.isEmpty then none else
      let r1 := rest.drop ws1.length
      let afterKind : Option Str :=
        if startsWithStr ("fee".toList) r1 then some (r1.drop 3)
        else if startsWithStr ("payment".toList) r1 then some (r1.drop 7)
        else if startsWithStr ("charge".toList) r1 then some (r1.drop 6)
        else none
      match afterKind with
      | none => none
      | some r =>
        let ws2 := r.takeWhile isJsSpace
        if ws2.isEmpty then none else
          let r2 := r.drop ws2.length
          if startsWithStr ("of".toList) r2 then
            let r3 := r2.drop 2
            let ws3 := r3.takeWhile isJsSpace
            if ws3.isEmpty then none else
              matchAmountCapture (r3.drop ws3.length)
          else none
  else none

/-- The keyword filter on payment-related clauses of
`basicPaymentTermExtraction`. -/
def paymentKeywordFilter (c : Clause) : Bool :=
  let lc := lowerStr c.clause
  containsSub ("payment".toList) lc || containsSub ("invoice".toList) lc ||
  containsSub ("net".toList) lc || containsSub ("due".toList) lc ||
  containsSub ("paid".toList) lc || containsSub ("pay within".toList) lc

/-- Normalized payment-term sentence for a `net N days` match. -/
def netTermString (n : Str) : Str :=
  "Payment terms: Net ".toList ++ n ++ " days.".toList

/-- Normalized payment-term sentence for `pay within` / `due within`. -/
def dueTermString (n : Str) : Str :=
  "Payment due within ".toList ++ n ++ " days.".toList

/-- Normalized payment-term sentence for a late-fee match. -/
def lateFeeTermString (a : Str) : Str :=
  "Late payment fee of ".toList ++ a ++ " applies.".toList

/-- The per-clause mapping step of `basicPaymentTermExtraction`: run the
four regexes on the lowercased clause text; on any match return the
verbatim clause when it is at most 100 characters, otherwise the first
applicable normalized sentence in the fixed priority order. -/
def paymentTermOfClause (c : Clause) : Option Str :=
  let ct := lowerStr c.clause
  let netM := scanFirst matchNetAt ct
  let payWithinM := scanFirst matchPayWithinAt ct
  let dueM := scanFirst matchDueAt ct
  let lateM := scanFirst matchLateFeeAt ct
  if netM.isSome || payWithinM.isSome || dueM.isSome || lateM.isSome then
    if c.clause.length ≤ 100 then some c.clause
    else
      match netM with
      | some n => some (netTermString n)
      | none =>
        match payWithinM with
        | some n => some (dueTermString n)
        | none =>
          match dueM with
          | some n => some (dueTermString n)
          | none =>
            match lateM with
            | some a => some (lateFeeTermString a)
            | none => none
  else none

/-- First-occurrence de-duplication, as performed by
`Array.from(new Set(...))`. -/
def dedupStrGo (seen : List Str) : List Str → List Str
  | [] => []
  | s :: rest =>
    if s ∈ seen then dedupStrGo seen rest
    else s :: dedupStrGo (s :: seen) rest

/-- `basicPaymentTermExtraction(clauses)` of the routes module: filter
payment-related clauses, map each to an extracted term (dropping `null`
and, per `filter(Boolean)`, empty strings), and de-duplicate via a set. -/
def basicPaymentTermExtraction (clauses : List Clause) : List Str :=
  let paymentRelated := clauses.filter paymentKeywordFilter
  let extracted := (paymentRelated.filterMap paymentTermOfClause).filter fun s => !s.isEmpty
  dedupStrGo [] extracted

/-- The stored clause of the C7 scenario: the sample payment clause,
114 characters long. -/
def net30Clause : Clause :=
  { clause := "Net 30 days from receipt of invoice. A late payment fee of 1.5% per month will be assessed on all overdue amounts.".toList,
    sect := "1.1".toList, page := 1, category := "Payment Terms".toList,
    risk_score := 2, compliance_status := Status.Compliant,
    document_id := "doc1".toList, recommendations := [], compliance_issues := [],
    id := 1, completed := false }

/-! ## AI-backed clause analysis (analyzeClauseWithAI of the OpenAI
module) and the per-clause loop of analyzeDocument.
`analyzeClauseWithAI` wraps its whole body in try/catch: a network
failure, empty content or malformed JSON all land in the catch branch,
modelled as the `none` outcome; a parsed JSON object is modelled as
`AIRaw` with optional fields (absent or falsy fields take the `||`
defaults of the source).  In particular the function never throws, so the
`catch (aiError)` branch of `analyzeDocument` that would call
`basicClauseAnalysis` is unreachable when an API key is configured. -/

/-- The parsed JSON object of a successful AI response. -/
structure AIRaw where
  compliance_status : Option Status
  risk_score : Option Nat
  category : Option Str
  recommendations : Option (List Recommendation)
  compliance_issues : Option (List ComplianceIssue)
deriving DecidableEq

/-- The fixed recommendation returned by the catch branch of
`analyzeClauseWithAI`. -/
def aiFailedRecommendation : Recommendation :=
  { title := "AI Analysis Failed".toList,
    description := "The automated analysis could not be completed. Please review this clause manually.".toList }

/-- `analyzeClauseWithAI(clause, rules, section?)`: on a successful call
the parsed fields with their `||` defaults; on any failure (the catch
branch) the fixed default analysis.  The `clause` and `rules` arguments
only shape the prompt and are kept for fidelity. -/
def analyzeClauseWithAI (outcome : Option AIRaw) (clause : Str)
    (rules : List ComplianceRule) (sect : Option Str) : Analysis :=
  match outcome with
  | some raw =>
    { compliance_status := raw.compliance_status.getD Status.ReviewNeeded,
      risk_score := jsOrNat raw.risk_score 5,
      category := jsOrStr raw.category (jsOrStr sect ("General".toList)),
      recommendations := raw.recommendations.getD [],
      compliance_issues := raw.compliance_issues.getD [] }
  | none =>
    { compliance_status := Status.ReviewNeeded,
      risk_score := 5,
      category := jsOrStr sect ("General".toList),
      recommendations := [aiFailedRecommendation],
      compliance_issues := [] }

/-- One iteration of the clause loop of `analyzeDocument`: pick the AI
path when an API key is configured (its own catch makes it total),
otherwise the heuristic path; then build the insert record.  `i` is the
loop index (`page` is `i / 4 + 1`). -/
def analyzeOneClause (rules : List ComplianceRule) (documentId : Str) (apiKeySet : Bool)
    (outcome : Option AIRaw) (sect : Str) (draw : Bool × Fin 10 × Fin 6)
    (i : Nat) (clauseText : Str) : InsertClause :=
  let analysis :=
    if apiKeySet then analyzeClauseWithAI outcome clauseText rules (some sect)
    else basicClauseAnalysis clauseText rules sect draw.1 draw.2.1 draw.2.2
  { clause := clauseText, sect := sect, page := i / 4 + 1,
    category := analysis.category, risk_score := analysis.risk_score,
    compliance_status := analysis.compliance_status, document_id := documentId,
    recommendations := analysis.recommendations,
    compliance_issues := analysis.compliance_issues }

/-- The clause loop of `analyzeDocument`, with the per-index AI outcomes,
random section labels and random draws passed as streams.  The loop never
throws: every clause, including every clause whose AI call failed, yields
exactly one analyzed record. -/
def analyzeDocumentModel (rules : List ComplianceRule) (documentId : Str) (apiKeySet : Bool)
    (outcomes : Nat → Option AIRaw) (sections : Nat → Str)
    (draws : Nat → Bool × Fin 10 × Fin 6) : Nat → List Str → List InsertClause
  | _, [] => []
  | i, c :: cs =>
    analyzeOneClause rules documentId apiKeySet (outcomes i) (sections i) (draws i) i c
      :: analyzeDocumentModel rules documentId apiKeySet outcomes sections draws (i + 1) cs

/-- Decidable check that the heuristic analyzer yields the status `st`
for every one of the 120 possible random draws. -/
def heuristicStatusAlways (clauseText : Str) (rules : List ComplianceRule) (sect : Str)
    (st : Status) : Bool :=
  [true, false].all fun coin =>
    (List.finRange 10).all fun base =>
      (List.finRange 6).all fun pick =>
        decide ((basicClauseAnalysis clauseText rules sect coin base pick).compliance_status = st)

/-- The clause and violated rule of the C8 counterexample. -/
def liabilityClauseText : Str := "The vendor liability is excluded.".toList

def liabilityRule : ComplianceRule :=
  { id := 2, keyword := "liability".toList, allowed := false,
    riskScore := 8, category := none, description := none }

/-! ## Upload route: clause reset and insertion (routes module +
storage adapter).  The clause store is modelled as the insertion-ordered
list of stored clauses; `deleteClause` removes the clause with a given
id and `createClause` appends with a fresh id from the running counter,
per the storage adapter in the sources. -/

def deleteClause (store : List Clause) (clauseId : Nat) : List Clause :=
  store.filter fun c => decide (c.id ≠ clauseId)

/-- The reset loop of the upload route: snapshot all clauses, then delete
each one whose id is truthy (`if (clause.id)`). -/
def resetAllClauses (store : List Clause) : List Clause :=
  store.foldl (fun s c => if c.id ≠ 0 then deleteClause s c.id else s) store

/-- The insertion loop of the upload route: each analyzed clause is
stored with `completed := false` and a fresh id from the counter. -/
def insertClauses (store : List Clause) (nextId : Nat) : List InsertClause → List Clause × Nat
  | [] => (store, nextId)
  | c :: cs =>
    insertClauses (store ++ [{ toInsertClause := c, id := nextId, completed := false }])
      (nextId + 1) cs

/-- The clause-related effect of a successful `/api/upload`: reset all
existing clauses, then store the analyzed clauses of the new document. -/
def uploadRoute (store : List Clause) (nextId : Nat) (analyzed : List InsertClause) :
    List Clause × Nat :=
  insertClauses (resetAllClauses store) nextId analyzed

/-- The pre-existing stored clause of the C9 witness scenario. -/
def staleClauseW : Clause :=
  { clause := "Old clause text.".toList, sect := "2.3".toList, page := 1,
    category := "General".toList, risk_score := 1,
    compliance_status := Status.Compliant, document_id := "doc0".toList,
    recommendations := [], compliance_issues := [], id := 1, completed := false }

/-- The stored clause produced by the C9 witness upload. -/
def uploadedClauseW : Clause :=
  { toInsertClause := analyzeOneClause [] ("d2".toList) true none ("1.1".toList)
      (true, (0 : Fin 10), (0 : Fin 6)) 0 ("hello".toList),
    id := 2, completed := false }

/-! ## Theorems -/

/-! ## Theorems about the heuristic analyzer and the rule matcher -/

theorem basicClauseAnalysis_status (clauseText : Str) (rules : List ComplianceRule) (sect : Str)
    (statusCoin : Bool) (riskBase : Fin 10) (categoryPick : Fin 6) :
    (basicClauseAnalysis clauseText rules sect statusCoin riskBase categoryPick).compliance_status
      = heuristicStatus clauseText rules statusCoin := rfl

theorem basicClauseAnalysis_risk (clauseText : Str) (rules : List ComplianceRule) (sect : Str)
    (statusCoin : Bool) (riskBase : Fin 10) (categoryPick : Fin 6) :
    (basicClauseAnalysis clauseText rules sect statusCoin riskBase categoryPick).risk_score
      = adjustRisk (heuristicStatus clauseText rules statusCoin) riskBase.val := rfl

/-- C1: for every clause text, rule set and value of the internal random
draws, the heuristic clause analyzer returns a risk_score inside the band
implied by the compliance_status it returns: Non-Compliant in [7,9],
Review Needed in [4,6], Compliant in [0,3]. -/
theorem risk_score_in_status_band (clauseText : Str) (rules : List ComplianceRule) (sect : Str)
    (statusCoin : Bool) (riskBase : Fin 10) (categoryPick : Fin 6) :
    statusLo (basicClauseAnalysis clauseText rules sect statusCoin riskBase categoryPick).compliance_status
        ≤ (basicClauseAnalysis clauseText rules sect statusCoin riskBase categoryPick).risk_score
    ∧ (basicClauseAnalysis clauseText rules sect statusCoin riskBase categoryPick).risk_score
        ≤ statusHi (basicClauseAnalysis clauseText rules sect statusCoin riskBase categoryPick).compliance_status := by
  have hb : riskBase.val < 10 := riskBase.isLt
  rw [basicClauseAnalysis_status, basicClauseAnalysis_risk]
  generalize heuristicStatus clauseText rules statusCoin = st
  cases st <;> simp [adjustRisk, statusLo, statusHi] <;> omega

/-- C10: the heuristic clause analyzer never produces a risk_score of 10:
whatever the status and the random draws, the result is at most 9. -/
theorem risk_score_le_nine (clauseText : Str) (rules : List ComplianceRule) (sect : Str)
    (statusCoin : Bool) (riskBase : Fin 10) (categoryPick : Fin 6) :
    (basicClauseAnalysis clauseText rules sect statusCoin riskBase categoryPick).risk_score ≤ 9 := by
  have hb : riskBase.val < 10 := riskBase.isLt
  rw [basicClauseAnalysis_risk]
  generalize heuristicStatus clauseText rules statusCoin = st
  cases st <;> simp [adjustRisk] <;> omega

theorem length_pos_iff_any {α : Type} (l : List α) (p : α → Bool) :
    0 < (l.filter p).length ↔ l.any p = true := by
  simp [List.length_pos_iff_exists_mem, List.mem_filter, List.any_eq_true]

/-- C2: the heuristic analyzer's status is "Non-Compliant" exactly when a
matched rule is a violation; with matches but no violations it is decided
by the coin flip between "Compliant" and "Review Needed"; with no match it
is "Compliant"; and on the empty rule set the status is "Compliant" with
risk_score in [0,3]. -/
theorem heuristic_status_characterization (clauseText : Str) (rules : List ComplianceRule)
    (sect : Str) (statusCoin : Bool) (riskBase : Fin 10) (categoryPick : Fin 6) :
    ((basicClauseAnalysis clauseText rules sect statusCoin riskBase categoryPick).compliance_status
        = (if (matchRules clauseText rules).any (·.isViolation) then Status.NonCompliant
           else if (matchRules clauseText rules).isEmpty then Status.Compliant
           else if statusCoin then Status.Compliant else Status.ReviewNeeded))
    ∧ (matchRules clauseText rules = [] →
        (basicClauseAnalysis clauseText rules sect statusCoin riskBase categoryPick).compliance_status
            = Status.Compliant
        ∧ (basicClauseAnalysis clauseText rules sect statusCoin riskBase categoryPick).risk_score ≤ 3) := by
  constructor
  · rw [basicClauseAnalysis_status]
    unfold heuristicStatus
    by_cases hv : (matchRules clauseText rules).any (·.isViolation)
    · have : 0 < ((matchRules clauseText rules).filter (·.isViolation)).length :=
        (length_pos_iff_any _ _).mpr hv
      simp [hv, this]
    · have h0 : ¬ 0 < ((matchRules clauseText rules).filter (·.isViolation)).length := by
        rw [length_pos_iff_any]; exact hv
      by_cases hm : (matchRules clauseText rules).isEmpty
      · have hnil : matchRules clauseText rules = [] := by
          simpa [List.isEmpty_iff] using hm
        simp [hv, hm, hnil]
      · have hpos : 0 < (matchRules clauseText rules).length := by
          rcases List.exists_mem_of_ne_nil _ (by simpa [List.isEmpty_iff] using hm) with ⟨a, ha⟩
          exact List.length_pos_of_mem ha
        simp [hv, hm, h0, hpos]
  · intro hnil
    constructor
    · rw [basicClauseAnalysis_status]
      unfold heuristicStatus
      simp [hnil]
    · rw [basicClauseAnalysis_risk]
      unfold heuristicStatus
      simp [hnil, adjustRisk]

/-- Witness for the empty-rule-set part of the C2 theorem at a concrete
clause and concrete draws. -/
theorem heuristic_status_characterization_witness :
    (basicClauseAnalysis ("Payment is due.".toList) [] ("1.1".toList) true 0 0).compliance_status
        = Status.Compliant
    ∧ (basicClauseAnalysis ("Payment is due.".toList) [] ("1.1".toList) true 0 0).risk_score ≤ 3 :=
  (heuristic_status_characterization ("Payment is due.".toList) [] ("1.1".toList) true 0 0).2 rfl

/-- C4: the rule matcher returns exactly the rules whose keyword occurs
case-insensitively as a substring of the clause text (all of them, not
only the first), each paired with isViolation = !rule.allowed. -/
theorem matchRules_characterization (clauseText : Str) (rules : List ComplianceRule) :
    matchRules clauseText rules
        = (rules.filter fun r => containsSub (lowerStr r.keyword) (lowerStr clauseText)).map
            (fun r => { rule := r, isViolation := !r.allowed })
    ∧ ∀ r : ComplianceRule,
        (∃ m ∈ matchRules clauseText rules, m.rule = r)
          ↔ (r ∈ rules ∧ containsSub (lowerStr r.keyword) (lowerStr clauseText) = true) := by
  constructor
  · induction rules with
    | nil => rfl
    | cons a as ih =>
      by_cases h : containsSub (lowerStr a.keyword) (lowerStr clauseText)
      · simp [matchRules, List.filterMap_cons, List.filter_cons, h] at ih ⊢
        exact ih
      · simp [matchRules, List.filterMap_cons, List.filter_cons, h] at ih ⊢
        exact ih
  · intro r
    constructor
    · rintro ⟨m, hm, hrm⟩
      rcases List.mem_filterMap.mp hm with ⟨a, ha, hfa⟩
      by_cases h : containsSub (lowerStr a.keyword) (lowerStr clauseText)
      · simp [h] at hfa
        subst hfa
        exact ⟨hrm ▸ ha, hrm ▸ h⟩
      · simp [h] at hfa
    · rintro ⟨hr, hc⟩
      refine ⟨{ rule := r, isViolation := !r.allowed }, ?_, rfl⟩
      exact List.mem_filterMap.mpr ⟨r, hr, by simp [hc]⟩

/-- C5: the set of rule matches is invariant under permutation of the
rule list. -/
theorem matchRules_perm_invariant (clauseText : Str) (rulesA rulesB : List ComplianceRule)
    (m : RuleMatch) (h : rulesA.Perm rulesB) :
    m ∈ matchRules clauseText rulesA ↔ m ∈ matchRules clauseText rulesB :=
  (h.filterMap _).mem_iff

/-- Witness for the C5 theorem: a concrete two-rule permutation. -/
theorem matchRules_perm_invariant_witness :
    { rule := ruleLiabilityW, isViolation := true }
        ∈ matchRules clauseLiabilityW [ruleLiabilityW, ruleNdaW]
      ↔ { rule := ruleLiabilityW, isViolation := true }
        ∈ matchRules clauseLiabilityW [ruleNdaW, ruleLiabilityW] :=
  matchRules_perm_invariant clauseLiabilityW [ruleLiabilityW, ruleNdaW] [ruleNdaW, ruleLiabilityW]
    { rule := ruleLiabilityW, isViolation := true } (List.Perm.swap ruleNdaW ruleLiabilityW [])

/-- C3 counterexample: a text whose whitespace-trimmed length exceeds 50
characters on which `splitTextIntoClauses` nevertheless returns the empty
array, refuting the claim that such input always yields at least one
clause. -/
theorem splitTextIntoClauses_empty_on_long_input :
    splitTextIntoClauses shortPiecesText = [] ∧ 50 < (trimStr shortPiecesText).length := by
  constructor
  · rfl
  · decide

/-- C3 as amended: the heuristic segmenter returns at least one clause
exactly when some blank-line-separated paragraph has whitespace-trimmed
length above 50, or some sentence piece of the `\.\s+` re-split has
length above 50; a total trimmed length above 50 alone does not
suffice. -/
theorem splitTextIntoClauses_nonempty_iff (text : Str) :
    1 ≤ (splitTextIntoClauses text).length
      ↔ ((∃ p ∈ splitSep matchBlankSep text, 50 < (trimStr p).length)
         ∨ (∃ s ∈ splitSep matchDotSep text, 50 < s.length)) := by
  unfold splitTextIntoClauses
  by_cases h : ((splitSep matchBlankSep text).filter fun p => decide (50 < (trimStr p).length)).isEmpty
  · have hnil : ((splitSep matchBlankSep text).filter fun p => decide (50 < (trimStr p).length)) = [] := by
      simpa [List.isEmpty_iff] using h
    have hno : ¬ ∃ p ∈ splitSep matchBlankSep text, 50 < (trimStr p).length := by
      rw [List.filter_eq_nil] at hnil
      rintro ⟨p, hp, hlen⟩
      exact hnil p hp (by simpa using hlen)
    simp only [h, if_true]
    rw [Nat.one_le_iff_ne_zero, ← Nat.pos_iff_ne_zero, List.length_pos_iff_exists_mem]
    constructor
    · rintro ⟨s, hs⟩
      rcases List.mem_filter.mp hs with ⟨hs1, hs2⟩
      exact Or.inr ⟨s, hs1, by simpa using hs2⟩
    · rintro (hp | ⟨s, hs, hlen⟩)
      · exact absurd hp hno
      · exact ⟨s, List.mem_filter.mpr ⟨hs, by simpa using hlen⟩⟩
  · have hne : ((splitSep matchBlankSep text).filter fun p => decide (50 < (trimStr p).length)) ≠ [] := by
      simpa [List.isEmpty_iff] using h
    rcases List.exists_mem_of_ne_nil _ hne with ⟨p, hp⟩
    rcases List.mem_filter.mp hp with ⟨hp1, hp2⟩
    simp only [h, if_false]
    constructor
    · intro _
      exact Or.inl ⟨p, hp1, by simpa using hp2⟩
    · intro _
      rw [Nat.one_le_iff_ne_zero, ← Nat.pos_iff_ne_zero, List.length_pos_iff_exists_mem]
      exact ⟨p, hp⟩

theorem feeMapHas_iff (m : FeeMap) (k : Str) : feeMapHas m k = true ↔ k ∈ feeKeys m := by
  simp [feeMapHas, feeKeys, List.any_eq_true, List.mem_map]

theorem feeMapHas_eq_false (m : FeeMap) (k : Str) (h : k ∉ feeKeys m) :
    feeMapHas m k = false := by
  rw [← Bool.not_eq_true]
  exact fun hc => h ((feeMapHas_iff m k).mp hc)

theorem feeKeys_feeMapSet (m : FeeMap) (k : Str) (v : Fee) :
    feeKeys (feeMapSet m k v) = if k ∈ feeKeys m then feeKeys m else feeKeys m ++ [k] := by
  by_cases h : k ∈ feeKeys m
  · rw [if_pos h]
    have hb : feeMapHas m k = true := (feeMapHas_iff m k).mpr h
    simp only [feeMapSet, hb, if_true]
    unfold feeKeys
    rw [List.map_map]
    apply List.map_congr_left
    intro p _
    by_cases hp : p.1 = k
    · simp [hp]
    · simp [hp]
  · rw [if_neg h]
    have hb : feeMapHas m k = false := feeMapHas_eq_false m k h
    simp [feeMapSet, hb, feeKeys]

theorem wfFeeMap_feeMapSet (m : FeeMap) (v : Fee) (h : WfFeeMap m) :
    WfFeeMap (feeMapSet m v.name v) := by
  unfold feeMapSet
  by_cases hb : feeMapHas m v.name
  · simp only [hb, if_true]
    intro p hp
    rcases List.mem_map.mp hp with ⟨q, hq, he⟩
    by_cases hqk : q.1 = v.name
    · simp [hqk] at he
      subst he; rfl
    · simp [hqk] at he
      subst he; exact h q hq
  · simp only [hb, if_false]
    intro p hp
    rcases List.mem_append.mp hp with hp1 | hp2
    · exact h p hp1
    · rcases List.mem_singleton.mp hp2 with rfl
      rfl

theorem nodup_feeKeys_feeMapSet (m : FeeMap) (k : Str) (v : Fee)
    (h : (feeKeys m).Nodup) : (feeKeys (feeMapSet m k v)).Nodup := by
  rw [feeKeys_feeMapSet]
  by_cases hk : k ∈ feeKeys m
  · simpa [hk] using h
  · simp [hk, List.nodup_append, h]

theorem wfFeeMap_foldl_set (l : List Fee) (m : FeeMap) (h : WfFeeMap m) :
    WfFeeMap (l.foldl (fun m f => feeMapSet m f.name f) m) := by
  induction l generalizing m with
  | nil => exact h
  | cons f fs ih => exact ih _ (wfFeeMap_feeMapSet m f h)

theorem nodup_feeKeys_foldl_set (l : List Fee) (m : FeeMap) (h : (feeKeys m).Nodup) :
    (feeKeys (l.foldl (fun m f => feeMapSet m f.name f) m)).Nodup := by
  induction l generalizing m with
  | nil => exact h
  | cons f fs ih => exact ih _ (nodup_feeKeys_feeMapSet m f.name f h)

theorem wfFeeMap_feeMapOf (fees : List Fee) : WfFeeMap (feeMapOf fees) :=
  wfFeeMap_foldl_set fees [] (by intro p hp; cases hp)

theorem nodup_feeKeys_feeMapOf (fees : List Fee) : (feeKeys (feeMapOf fees)).Nodup :=
  nodup_feeKeys_foldl_set fees [] List.nodup_nil

theorem wfFeeMap_addNewFees (m : FeeMap) (l : List Fee) (h : WfFeeMap m) :
    WfFeeMap (addNewFees m l) := by
  induction l generalizing m with
  | nil => exact h
  | cons f fs ih =>
    unfold addNewFees
    simp only [List.foldl_cons]
    by_cases hb : feeMapHas m f.name
    · simp only [hb, if_true]
      exact ih m h
    · simp only [hb, if_false]
      refine ih _ ?_
      intro p hp
      rcases List.mem_append.mp hp with hp1 | hp2
      · exact h p hp1
      · rcases List.mem_singleton.mp hp2 with rfl
        rfl

theorem feeKeys_append_single (m : FeeMap) (k : Str) (v : Fee) :
    feeKeys (m ++ [(k, v)]) = feeKeys m ++ [k] := by
  simp [feeKeys]

theorem mem_feeKeys_append_single (m : FeeMap) (k : Str) (v : Fee) :
    k ∈ feeKeys (m ++ [(k, v)]) := by
  rw [feeKeys_append_single]
  exact List.mem_append_right _ (List.mem_singleton_self _)

theorem nodup_feeKeys_addNewFees (m : FeeMap) (l : List Fee) (h : (feeKeys m).Nodup) :
    (feeKeys (addNewFees m l)).Nodup := by
  induction l generalizing m with
  | nil => exact h
  | cons f fs ih =>
    unfold addNewFees
    simp only [List.foldl_cons]
    by_cases hb : feeMapHas m f.name
    · simp only [hb, if_true]
      exact ih m h
    · rw [if_neg hb]
      refine ih _ ?_
      have hk : f.name ∉ feeKeys m := fun hc => by
        rw [(feeMapHas_iff m f.name).mpr hc] at hb
        exact hb rfl
      rw [feeKeys_append_single]
      refine h.append (List.nodup_singleton _) ?_
      intro x hx hy
      rcases List.mem_singleton.mp hy with rfl
      exact hk hx

theorem feeKeys_addNewFees_mono (m : FeeMap) (l : List Fee) (k : Str)
    (h : k ∈ feeKeys m) : k ∈ feeKeys (addNewFees m l) := by
  induction l generalizing m with
  | nil => exact h
  | cons f fs ih =>
    unfold addNewFees
    simp only [List.foldl_cons]
    by_cases hb : feeMapHas m f.name
    · simp only [hb, if_true]
      exact ih m h
    · rw [if_neg hb]
      refine ih _ ?_
      rw [feeKeys_append_single]
      exact List.mem_append_left _ h

theorem names_mem_feeKeys_addNewFees (m : FeeMap) (l : List Fee) :
    ∀ f ∈ l, f.name ∈ feeKeys (addNewFees m l) := by
  induction l generalizing m with
  | nil => intro f hf; cases hf
  | cons g gs ih =>
    intro f hf
    unfold addNewFees
    simp only [List.foldl_cons]
    rcases List.mem_cons.mp hf with rfl | hf2
    · by_cases hb : feeMapHas m f.name
      · simp only [hb, if_true]
        exact feeKeys_addNewFees_mono m gs f.name ((feeMapHas_iff m f.name).mp hb)
      · simp only [hb, if_false]
        exact feeKeys_addNewFees_mono _ gs f.name (mem_feeKeys_append_single m f.name f)
    · by_cases hb : feeMapHas m g.name
      · rw [if_pos hb]
        exact ih m f hf2
      · rw [if_neg hb]
        exact ih _ f hf2

theorem addNewFees_eq_self (m : FeeMap) (l : List Fee)
    (h : ∀ f ∈ l, feeMapHas m f.name = true) : addNewFees m l = m := by
  induction l with
  | nil => rfl
  | cons f fs ih =>
    unfold addNewFees
    simp only [List.foldl_cons]
    rw [if_pos (h f (List.mem_cons_self f fs))]
    exact ih fun g hg => h g (List.mem_cons_of_mem f hg)

theorem feeMapOf_values (m : FeeMap) (acc : FeeMap) (hw : WfFeeMap m)
    (hn : (feeKeys acc ++ feeKeys m).Nodup) :
    (m.map Prod.snd).foldl (fun m f => feeMapSet m f.name f) acc = acc ++ m := by
  induction m generalizing acc with
  | nil => simp
  | cons p rest ih =>
    obtain ⟨k, v⟩ := p
    have hkv : k = v.name := hw (k, v) (List.mem_cons_self _ _)
    have hkacc : k ∉ feeKeys acc := by
      rcases List.nodup_append.mp hn with ⟨_, _, hdisj⟩
      intro hc
      exact hdisj hc (by simp [feeKeys])
    have hb : feeMapHas acc v.name = false := feeMapHas_eq_false acc v.name (hkv ▸ hkacc)
    simp only [List.map_cons, List.foldl_cons]
    have hset : feeMapSet acc v.name v = acc ++ [(k, v)] := by
      simp only [feeMapSet, hb, if_false, Bool.false_eq_true]
      rw [hkv]
    rw [hset]
    have hw2 : WfFeeMap rest := fun q hq => hw q (List.mem_cons_of_mem _ hq)
    have hn2 : (feeKeys (acc ++ [(k, v)]) ++ feeKeys rest).Nodup := by
      rw [feeKeys_append_single]
      have hkeys : feeKeys ((k, v) :: rest) = k :: feeKeys rest := by simp [feeKeys]
      rw [hkeys, List.append_cons] at hn
      exact hn
    rw [ih (acc ++ [(k, v)]) hw2 hn2, List.append_assoc]
    simp

/-- C6: the fee-merge step of the extract-fees route is idempotent.
Merging the same extraction output a second time into the summary adds no
new entries: extracted fees whose name is already a key are dropped, the
existing entries are retained, and the fees array is unchanged. -/
theorem mergeFees_idempotent (existing extracted : List Fee) :
    mergeFees (mergeFees existing extracted) extracted = mergeFees existing extracted := by
  have hw : WfFeeMap (addNewFees (feeMapOf existing) extracted) :=
    wfFeeMap_addNewFees _ _ (wfFeeMap_feeMapOf existing)
  have hn : (feeKeys (addNewFees (feeMapOf existing) extracted)).Nodup :=
    nodup_feeKeys_addNewFees _ _ (nodup_feeKeys_feeMapOf existing)
  have hmap : feeMapOf (mergeFees existing extracted)
      = addNewFees (feeMapOf existing) extracted := by
    unfold mergeFees feeMapOf
    exact feeMapOf_values _ [] hw (by simpa using hn)
  unfold mergeFees at hmap ⊢
  rw [hmap]
  rw [addNewFees_eq_self]
  intro f hf
  exact (feeMapHas_iff _ _).mpr
    (names_mem_feeKeys_addNewFees (feeMapOf existing) extracted f hf)

theorem matchNetAt_startsWith (cs : Str) (n : Str) (h : matchNetAt cs = some n) :
    startsWithStr ("net".toList) cs = true := by
  unfold matchNetAt at h
  by_cases hs : startsWithStr ("net".toList) cs
  · exact hs
  · rw [if_neg hs] at h
    cases h

theorem scanFirst_net_contains (l : Str) (n : Str)
    (h : scanFirst matchNetAt l = some n) : containsSub ("net".toList) l = true := by
  induction l with
  | nil => cases h
  | cons c cs ih =>
    unfold scanFirst at h
    cases hm : matchNetAt (c :: cs) with
    | some r =>
      unfold containsSub
      rw [matchNetAt_startsWith (c :: cs) r hm]
      rfl
    | none =>
      rw [hm] at h
      unfold containsSub
      rw [ih h]
      simp

theorem mem_dedupStrGo (l : List Str) (seen : List Str) (a : Str) :
    a ∈ dedupStrGo seen l ↔ (a ∈ l ∧ a ∉ seen) := by
  induction l generalizing seen with
  | nil => simp [dedupStrGo]
  | cons s rest ih =>
    unfold dedupStrGo
    by_cases hs : s ∈ seen
    · rw [if_pos hs, ih]
      constructor
      · rintro ⟨h1, h2⟩
        exact ⟨List.mem_cons_of_mem _ h1, h2⟩
      · rintro ⟨h1, h2⟩
        rcases List.mem_cons.mp h1 with rfl | h1
        · exact absurd hs h2
        · exact ⟨h1, h2⟩
    · rw [if_neg hs]
      constructor
      · intro h
        rcases List.mem_cons.mp h with rfl | h2
        · exact ⟨List.mem_cons_self _ _, hs⟩
        · rcases (ih _).mp h2 with ⟨h3, h4⟩
          exact ⟨List.mem_cons_of_mem _ h3, fun hc => h4 (List.mem_cons_of_mem _ hc)⟩
      · rintro ⟨h1, h2⟩
        rcases List.mem_cons.mp h1 with rfl | h3
        · exact List.mem_cons_self _ _
        · by_cases ha : a = s
          · subst ha
            exact List.mem_cons_self _ _
          · refine List.mem_cons_of_mem _ ((ih _).mpr ⟨h3, ?_⟩)
            intro hc
            rcases List.mem_cons.mp hc with h | h
            · exact ha h
            · exact h2 h

/-- C7: any stored clause matching `net N days` (case-insensitively)
contributes to `basicPaymentTermExtraction`: the normalized sentence
`Payment terms: Net N days.` when the clause is longer than 100
characters, the verbatim clause text when it is at most 100 characters;
in either case the result is a nonempty array. -/
theorem paymentTermExtraction_net (clauses : List Clause) (c : Clause) (n : Str)
    (hc : c ∈ clauses)
    (hnet : scanFirst matchNetAt (lowerStr c.clause) = some n) :
    (100 < c.clause.length → netTermString n ∈ basicPaymentTermExtraction clauses)
    ∧ (c.clause.length ≤ 100 → c.clause ∈ basicPaymentTermExtraction clauses) := by
  have hfilter : paymentKeywordFilter c = true := by
    unfold paymentKeywordFilter
    dsimp only
    rw [scanFirst_net_contains _ n hnet]
    simp
  have hcrel : c ∈ clauses.filter paymentKeywordFilter :=
    List.mem_filter.mpr ⟨hc, hfilter⟩
  have hclause_ne : c.clause ≠ [] := by
    intro h0
    rw [h0] at hnet
    cases hnet
  constructor
  · intro hlen
    have hterm : paymentTermOfClause c = some (netTermString n) := by
      unfold paymentTermOfClause
      dsimp only
      rw [hnet]
      simp only [Option.isSome_some, Bool.true_or]
      rw [if_pos trivial, if_neg (Nat.not_le.mpr hlen)]
    have hmem1 : netTermString n
        ∈ (clauses.filter paymentKeywordFilter).filterMap paymentTermOfClause :=
      List.mem_filterMap.mpr ⟨c, hcrel, hterm⟩
    have hmem2 : netTermString n
        ∈ ((clauses.filter paymentKeywordFilter).filterMap paymentTermOfClause).filter
            (fun s => !s.isEmpty) :=
      List.mem_filter.mpr ⟨hmem1, by simp [netTermString]⟩
    unfold basicPaymentTermExtraction
    exact (mem_dedupStrGo _ [] _).mpr ⟨hmem2, List.not_mem_nil _⟩
  · intro hlen
    have hterm : paymentTermOfClause c = some c.clause := by
      unfold paymentTermOfClause
      dsimp only
      rw [hnet]
      simp only [Option.isSome_some, Bool.true_or]
      rw [if_pos trivial, if_pos hlen]
    have hmem1 : c.clause
        ∈ (clauses.filter paymentKeywordFilter).filterMap paymentTermOfClause :=
      List.mem_filterMap.mpr ⟨c, hcrel, hterm⟩
    have hmem2 : c.clause
        ∈ ((clauses.filter paymentKeywordFilter).filterMap paymentTermOfClause).filter
            (fun s => !s.isEmpty) :=
      List.mem_filter.mpr ⟨hmem1, by simp [hclause_ne]⟩
    unfold basicPaymentTermExtraction
    exact (mem_dedupStrGo _ [] _).mpr ⟨hmem2, List.not_mem_nil _⟩

/-- Witness for the C7 theorem: the concrete scenario clause yields the
normalized sentence `Payment terms: Net 30 days.`. -/
theorem paymentTermExtraction_net_witness :
    netTermString ("30".toList) ∈ basicPaymentTermExtraction [net30Clause] :=
  (paymentTermExtraction_net [net30Clause] net30Clause ("30".toList)
    (List.mem_singleton_self _) (by decide)).1 (by decide)

/-- C8 counterexample: when the AI call for a clause fails, the clause
analyzer does not return the heuristic analysis result.  For the concrete
violating clause the failure path returns status "Review Needed" (with
risk 5 and the fixed "AI Analysis Failed" recommendation), while the
heuristic analyzer returns "Non-Compliant" under all 120 possible random
draws, so the returned analysis differs from every possible heuristic
result. -/
theorem aiFailure_not_heuristic :
    (analyzeClauseWithAI none liabilityClauseText [liabilityRule]
        (some ("3.5".toList))).compliance_status = Status.ReviewNeeded
    ∧ (analyzeClauseWithAI none liabilityClauseText [liabilityRule]
        (some ("3.5".toList))).recommendations = [aiFailedRecommendation]
    ∧ heuristicStatusAlways liabilityClauseText [liabilityRule] ("3.5".toList)
        Status.NonCompliant = true := by
  refine ⟨rfl, rfl, ?_⟩
  decide

/-- C8 as amended: a failed or malformed AI response for one clause is
absorbed inside `analyzeClauseWithAI`, which returns the fixed default
analysis (status "Review Needed", risk 5, the "AI Analysis Failed"
recommendation) rather than the heuristic result; no error propagates,
and the loop still yields one record per clause, so the rest of the
document is unaffected. -/
theorem aiFailure_default_and_loop_total (rules : List ComplianceRule) (documentId : Str)
    (outcomes : Nat → Option AIRaw) (sections : Nat → Str)
    (draws : Nat → Bool × Fin 10 × Fin 6) (clauses : List Str) (i : Nat)
    (hfail : outcomes i = none) :
    (analyzeDocumentModel rules documentId true outcomes sections draws 0 clauses).length
        = clauses.length
    ∧ ((analyzeDocumentModel rules documentId true outcomes sections draws 0 clauses)[i]?).map
          (fun r => (r.compliance_status, r.risk_score, r.recommendations))
        = (clauses[i]?).map
          (fun _ => (Status.ReviewNeeded, 5, [aiFailedRecommendation])) := by
  have hlen : ∀ (s : Nat) (l : List Str),
      (analyzeDocumentModel rules documentId true outcomes sections draws s l).length
        = l.length := by
    intro s l
    induction l generalizing s with
    | nil => rfl
    | cons c cs ih =>
      unfold analyzeDocumentModel
      simp [ih]
  have hget : ∀ (l : List Str) (s j : Nat),
      (analyzeDocumentModel rules documentId true outcomes sections draws s l)[j]?
        = (l[j]?).map fun c =>
            analyzeOneClause rules documentId true (outcomes (s + j)) (sections (s + j))
              (draws (s + j)) (s + j) c := by
    intro l
    induction l with
    | nil => intro s j; simp [analyzeDocumentModel]
    | cons c cs ih =>
      intro s j
      cases j with
      | zero => simp [analyzeDocumentModel]
      | succ j =>
        unfold analyzeDocumentModel
        simp only [List.getElem?_cons_succ]
        rw [ih (s + 1) j]
        have : s + 1 + j = s + (j + 1) := by omega
        rw [this]
  refine ⟨hlen 0 clauses, ?_⟩
  rw [hget clauses 0 i]
  simp only [Nat.zero_add, hfail]
  cases clauses[i]? with
  | none => rfl
  | some c => rfl

/-- Witness for the amended C8 theorem: a one-clause document whose only
AI call fails. -/
theorem aiFailure_default_and_loop_total_witness :
    (analyzeDocumentModel [] ("d1".toList) true (fun _ => none) (fun _ => "1.1".toList)
        (fun _ => (true, (0 : Fin 10), (0 : Fin 6))) 0 ["hello".toList]).length
      = ["hello".toList].length
    ∧ ((analyzeDocumentModel [] ("d1".toList) true (fun _ => none) (fun _ => "1.1".toList)
        (fun _ => (true, (0 : Fin 10), (0 : Fin 6))) 0 ["hello".toList])[0]?).map
          (fun r => (r.compliance_status, r.risk_score, r.recommendations))
      = (["hello".toList][0]?).map
          (fun _ => (Status.ReviewNeeded, 5, [aiFailedRecommendation])) :=
  aiFailure_default_and_loop_total [] ("d1".toList) (fun _ => none)
    (fun _ => "1.1".toList) (fun _ => (true, (0 : Fin 10), (0 : Fin 6)))
    ["hello".toList] 0 rfl

theorem mem_deleteClause (store : List Clause) (clauseId : Nat) (c : Clause) :
    c ∈ deleteClause store clauseId ↔ (c ∈ store ∧ c.id ≠ clauseId) := by
  simp [deleteClause, List.mem_filter]

theorem mem_resetLoop (todo : List Clause) (init : List Clause) (c : Clause)
    (h : c ∈ todo.foldl (fun s x => if x.id ≠ 0 then deleteClause s x.id else s) init) :
    c ∈ init ∧ ∀ x ∈ todo, x.id ≠ 0 → c.id ≠ x.id := by
  induction todo generalizing init with
  | nil =>
    refine ⟨h, ?_⟩
    intro x hx
    cases hx
  | cons t ts ih =>
    rw [List.foldl_cons] at h
    rcases ih _ h with ⟨hstep, hrest⟩
    by_cases ht : t.id ≠ 0
    · rw [if_pos ht] at hstep
      rcases (mem_deleteClause _ _ _).mp hstep with ⟨hin, hne⟩
      refine ⟨hin, ?_⟩
      intro x hx
      rcases List.mem_cons.mp hx with rfl | hx2
      · intro _; exact hne
      · exact hrest x hx2
    · rw [if_neg ht] at hstep
      refine ⟨hstep, ?_⟩
      intro x hx
      rcases List.mem_cons.mp hx with rfl | hx2
      · intro hx0; exact absurd hx0 ht
      · exact hrest x hx2

theorem mem_insertClauses (l : List InsertClause) (store : List Clause) (nextId : Nat)
    (c : Clause) (h : c ∈ (insertClauses store nextId l).1) :
    c ∈ store ∨ ∃ a ∈ l, c.toInsertClause = a := by
  induction l generalizing store nextId with
  | nil => exact Or.inl h
  | cons a as ih =>
    unfold insertClauses at h
    rcases ih _ _ h with hin | ⟨b, hb, hcb⟩
    · rcases List.mem_append.mp hin with h1 | h2
      · exact Or.inl h1
      · rcases List.mem_singleton.mp h2 with rfl
        exact Or.inr ⟨a, List.mem_cons_self _ _, rfl⟩
    · exact Or.inr ⟨b, List.mem_cons_of_mem _ hb, hcb⟩

theorem analyzeDocumentModel_document_id (rules : List ComplianceRule) (documentId : Str)
    (apiKeySet : Bool) (outcomes : Nat → Option AIRaw) (sections : Nat → Str)
    (draws : Nat → Bool × Fin 10 × Fin 6) (s : Nat) (l : List Str) :
    ∀ a ∈ analyzeDocumentModel rules documentId apiKeySet outcomes sections draws s l,
      a.document_id = documentId := by
  induction l generalizing s with
  | nil => intro a ha; cases ha
  | cons c cs ih =>
    intro a ha
    unfold analyzeDocumentModel at ha
    rcases List.mem_cons.mp ha with rfl | ha2
    · rfl
    · exact ih (s + 1) a ha2

/-- C9: after a successful upload, every clause resident in storage
belongs to the newly uploaded document: the reset loop deletes every
previously stored clause (all stored ids are nonzero), and the insertion
loop stores exactly the analyzed clauses of the new document, all of
which carry its document id. -/
theorem uploadRoute_single_document (store : List Clause) (nextId : Nat)
    (rules : List ComplianceRule) (documentId : Str) (apiKeySet : Bool)
    (outcomes : Nat → Option AIRaw) (sections : Nat → Str)
    (draws : Nat → Bool × Fin 10 × Fin 6) (clauses : List Str)
    (hids : ∀ c ∈ store, c.id ≠ 0) :
    ∀ c ∈ (uploadRoute store nextId
        (analyzeDocumentModel rules documentId apiKeySet outcomes sections draws 0 clauses)).1,
      c.document_id = documentId := by
  intro c hc
  rcases mem_insertClauses _ _ _ c hc with hold | ⟨a, ha, hta⟩
  · rcases mem_resetLoop store store c hold with ⟨hmem, hdel⟩
    exact absurd rfl (hdel c hmem (hids c hmem))
  · show c.toInsertClause.document_id = documentId
    rw [hta]
    exact analyzeDocumentModel_document_id rules documentId apiKeySet outcomes sections
      draws 0 clauses a ha

/-- Witness for the C9 theorem: a concrete upload over a store holding a
stale clause of another document. -/
theorem uploadRoute_single_document_witness :
    uploadedClauseW.document_id = "d2".toList :=
  uploadRoute_single_document [staleClauseW] 2 [] ("d2".toList) true (fun _ => none)
    (fun _ => "1.1".toList) (fun _ => (true, (0 : Fin 10), (0 : Fin 6)))
    ["hello".toList] (by decide) uploadedClauseW (by decide)

end ContractAnalyzer

